import Mathlib

/-!
Verification of the proof-of-history core (`src/lib.rs` and `examples/demo.rs`).

The library is generic over a `digest::Digest` implementation, which the core
uses only through `new` / `update` / `finalize` over byte sequences, producing
a fixed-size output.  We model digest outputs as byte lists (`Bytes`) and the
digest capability as a structure `DigestAlg` over an abstract internal state
type `σ`.  All core operations (`tick`, the `Ticks` generator, `verify`) are
then shallow embeddings of the Rust functions, parametrised by the algorithm.

`verify` in the source is

    ticks.par_windows(2).enumerate()
        .filter(|(ix, w)| tick(&w[0], &data(ix, &w[1])) != w[1])
        .map(|(ix, _)| ix)
        .reduce(|| ticks.len(), |a, b| a.min(b))

followed by `if ix < ticks.len() { Err(ix) } else { Ok(()) }`.  The window at
index `ix` of a slice of length `n` is the pair `(ticks[ix], ticks[ix+1])`,
for `ix < n - 1`; we enumerate the window indices with `List.range (n - 1)`
and model the rayon parallel reduce by its (deterministic) sequential fold;
schedule independence of the reduce is proved separately via a reduction-tree
model (`RTree`).
-/

namespace PoH

/-- Byte strings: digest outputs (`Output<D>`) viewed through `AsRef<[u8]>`. -/
abbrev Bytes := List Nat

/-- The `digest::Digest` capability as used by the core: an initial state,
a streaming `update` over bytes, and a `finalize` producing the fixed-size
output.  `outLen` is the algorithm's output size (`Output<D>` length), used
for `Output::<D>::default()`, the all-zero output. -/
structure DigestAlg (σ : Type) where
  outLen : Nat
  new : σ
  update : σ → Bytes → σ
  finalize : σ → Bytes

variable {σ : Type}

/-- `Output::<D>::default()`: the all-zero output of the digest's size. -/
def defaultOutput (alg : DigestAlg σ) : Bytes :=
  List.replicate alg.outLen 0

/-- lib.rs `tick`: create a fresh digest state, update with the seed bytes,
update with the data bytes, finalize. -/
def tick (alg : DigestAlg σ) (seed data : Bytes) : Bytes :=
  alg.finalize (alg.update (alg.update alg.new seed) data)

/-- Hashing a single byte string in one shot (`D::digest(input)`):
fresh state, one update, finalize. -/
def hashBytes (alg : DigestAlg σ) (input : Bytes) : Bytes :=
  alg.finalize (alg.update alg.new input)

/-- lib.rs `Ticks<D>`: the generator state, holding the stored seed (the
output of the previous tick, or the initial seed). -/
structure Ticks where
  seed : Bytes

/-- lib.rs `ticks`: construct the generator from a seed. -/
def ticks (seed : Bytes) : Ticks :=
  ⟨seed⟩

/-- lib.rs `Ticks::next_with_data`: `self.seed = tick(&self.seed, data);
self.seed.clone()`.  Rust mutates `self` in place; we return the emitted
tick together with the updated generator state. -/
def Ticks.next_with_data (alg : DigestAlg σ) (t : Ticks) (data : Bytes) : Bytes × Ticks :=
  let s := tick alg t.seed data
  (s, ⟨s⟩)

/-- lib.rs `Ticks::next`: `next_with_data` with `Output::<D>::default()`. -/
def Ticks.next (alg : DigestAlg σ) (t : Ticks) : Bytes × Ticks :=
  Ticks.next_with_data alg t (defaultOutput alg)

/-- Whether the window at index `ix` (the adjacent pair
`(ticks[ix], ticks[ix+1])`) fails verification: the filter predicate of
`verify`, `tick::<D>(seed, &data(ix, hash)) != *hash` with `seed = ticks[ix]`
and `hash = ticks[ix+1]`. -/
def windowFails (alg : DigestAlg σ) (ticks : List Bytes) (data : Nat → Bytes → Bytes)
    (ix : Nat) : Bool :=
  decide (tick alg (ticks.getD ix []) (data ix (ticks.getD (ix + 1) [])) ≠ ticks.getD (ix + 1) [])

/-- The indices of the failing windows, in increasing order: the slice of
length `n` has windows `0, …, n - 2`. -/
def failingIndices (alg : DigestAlg σ) (ticks : List Bytes) (data : Nat → Bytes → Bytes) :
    List Nat :=
  (List.range (ticks.length - 1)).filter (windowFails alg ticks data)

/-- lib.rs `verify`: minimum-reduce the failing window indices with identity
`ticks.len()`; `Err ix` if some window failed, `Ok ()` otherwise. -/
def verify (alg : DigestAlg σ) (ticks : List Bytes) (data : Nat → Bytes → Bytes) :
    Except Nat Unit :=
  let ix := (failingIndices alg ticks data).foldl Nat.min ticks.length
  if ix < ticks.length then Except.error ix else Except.ok ()

/-- The chain relation over a whole slice: every tick beyond the first equals
the Tick Function applied to its predecessor and the data commitment supplied
for that pair (spec §3: `tick[i] == hash(tick[i-1], data_commitment[i])`,
with the commitment obtained from the data function at window index `i - 1`
and the right element's hash, exactly as `verify` consults it). -/
def chainOk (alg : DigestAlg σ) (ticks : List Bytes) (data : Nat → Bytes → Bytes) : Prop :=
  ∀ i < ticks.length - 1,
    tick alg (ticks.getD i []) (data i (ticks.getD (i + 1) [])) = ticks.getD (i + 1) []

instance (alg : DigestAlg σ) (ticks : List Bytes) (data : Nat → Bytes → Bytes) :
    Decidable (chainOk alg ticks data) :=
  Nat.decidableBallLT _ _

/-- Generate the ticks `t₁, …, tₙ` from seed `s` and commitments `ds`:
`t₁ = tick s d₁`, `tᵢ₊₁ = tick tᵢ dᵢ₊₁` (repeated `next_with_data`). -/
def genTicks (alg : DigestAlg σ) (s : Bytes) : List Bytes → List Bytes
  | [] => []
  | d :: ds =>
    let t := tick alg s d
    t :: genTicks alg t ds

/-- A concrete digest algorithm used to evaluate the model on closed inputs:
the state accumulates the fed bytes, `finalize` sums them into one byte. -/
def sumAlg : DigestAlg Bytes where
  outLen := 1
  new := []
  update := fun st b => st ++ b
  finalize := fun st => [st.foldl (· + ·) 0 % 256]

/-! ### The minimum-reduce -/

theorem minFold_le_init (n : Nat) (l : List Nat) : l.foldl Nat.min n ≤ n := by
  induction l generalizing n with
  | nil => exact Nat.le_refl n
  | cons a t ih => exact Nat.le_trans (ih (Nat.min n a)) (Nat.min_le_left n a)

theorem minFold_le_mem {x : Nat} (n : Nat) {l : List Nat} (h : x ∈ l) :
    l.foldl Nat.min n ≤ x := by
  induction l generalizing n with
  | nil => cases h
  | cons a t ih =>
    rcases List.mem_cons.mp h with rfl | hx
    · exact Nat.le_trans (minFold_le_init (Nat.min n x) t) (Nat.min_le_right n x)
    · exact ih (Nat.min n a) hx

theorem minFold_mem_or (n : Nat) (l : List Nat) :
    l.foldl Nat.min n = n ∨ l.foldl Nat.min n ∈ l := by
  induction l generalizing n with
  | nil => exact Or.inl rfl
  | cons a t ih =>
    rcases ih (Nat.min n a) with h | h
    · have hm : Nat.min n a = n ∨ Nat.min n a = a := by
        rcases Nat.le_total n a with hle | hle
        · exact Or.inl (Nat.min_eq_left hle)
        · exact Or.inr (Nat.min_eq_right hle)
      rcases hm with hm | hm
      · exact Or.inl (by rw [List.foldl_cons, h, hm])
      · exact Or.inr (by rw [List.foldl_cons, h, hm]; exact List.mem_cons_self a t)
    · exact Or.inr (List.mem_cons_of_mem a h)

/-! ### Characterising `verify` -/

theorem mem_failingIndices {alg : DigestAlg σ} {ts : List Bytes}
    {data : Nat → Bytes → Bytes} {i : Nat} :
    i ∈ failingIndices alg ts data ↔
      i < ts.length - 1 ∧
        tick alg (ts.getD i []) (data i (ts.getD (i + 1) [])) ≠ ts.getD (i + 1) [] := by
  unfold failingIndices windowFails
  rw [List.mem_filter, List.mem_range, decide_eq_true_iff]

theorem failingIndices_nil_iff {alg : DigestAlg σ} {ts : List Bytes}
    {data : Nat → Bytes → Bytes} :
    failingIndices alg ts data = [] ↔ chainOk alg ts data := by
  rw [List.eq_nil_iff_forall_not_mem]
  constructor
  · intro h i hi
    by_contra hne
    exact h i (mem_failingIndices.mpr ⟨hi, hne⟩)
  · intro h i hi
    rcases mem_failingIndices.mp hi with ⟨hlt, hne⟩
    exact hne (h i hlt)

theorem verify_ok_iff {alg : DigestAlg σ} {ts : List Bytes} {data : Nat → Bytes → Bytes} :
    verify alg ts data = Except.ok () ↔ chainOk alg ts data := by
  rw [← failingIndices_nil_iff]
  unfold verify
  constructor
  · intro h
    by_contra hne
    rcases List.exists_mem_of_ne_nil _ hne with ⟨i, hi⟩
    have hmem := mem_failingIndices.mp hi
    have hfold : (failingIndices alg ts data).foldl Nat.min ts.length < ts.length :=
      Nat.lt_of_le_of_lt (minFold_le_mem ts.length hi)
        (Nat.lt_of_lt_of_le hmem.1 (Nat.sub_le _ _))
    simp only [hfold, if_true] at h
    exact Except.noConfusion h
  · intro h
    rw [h]
    simp only [List.foldl_nil, Nat.lt_irrefl, if_false]

theorem verify_error_iff {alg : DigestAlg σ} {ts : List Bytes}
    {data : Nat → Bytes → Bytes} {m : Nat} :
    verify alg ts data = Except.error m ↔
      m ∈ failingIndices alg ts data ∧ ∀ j ∈ failingIndices alg ts data, m ≤ j := by
  unfold verify
  constructor
  · intro h
    rcases Nat.lt_or_ge ((failingIndices alg ts data).foldl Nat.min ts.length) ts.length
      with hlt | hge
    · simp only [hlt, if_true] at h
      injection h with h
      subst h
      refine ⟨?_, fun j hj => minFold_le_mem ts.length hj⟩
      rcases minFold_mem_or ts.length (failingIndices alg ts data) with he | he
      · rw [he] at hlt; exact absurd hlt (Nat.lt_irrefl _)
      · exact he
    · simp only [Nat.not_lt.mpr hge, if_false] at h
      exact Except.noConfusion h
  · rintro ⟨hm, hmin⟩
    have hmlt : m < ts.length :=
      Nat.lt_of_lt_of_le (mem_failingIndices.mp hm).1 (Nat.sub_le _ _)
    have hle : (failingIndices alg ts data).foldl Nat.min ts.length ≤ m :=
      minFold_le_mem ts.length hm
    have heq : (failingIndices alg ts data).foldl Nat.min ts.length = m := by
      rcases minFold_mem_or ts.length (failingIndices alg ts data) with he | he
      · omega
      · exact Nat.le_antisymm hle (hmin _ he)
    simp [heq, hmlt]

/-! ### Claim theorems -/

/-- C1: for every slice of ticks of length at least 1 and every data function,
`verify` returns `Ok` exactly when every consecutive pair satisfies the chain
relation (each tick equals the Tick Function applied to its predecessor and
the data commitment supplied for that pair), and returns `Err` otherwise;
there are no other outcomes. -/
theorem verify_ok_iff_chain (alg : DigestAlg σ) (ts : List Bytes)
    (data : Nat → Bytes → Bytes) (_h : 1 ≤ ts.length) :
    (verify alg ts data = Except.ok () ↔ chainOk alg ts data) ∧
    (¬ chainOk alg ts data → ∃ i, verify alg ts data = Except.error i) := by
  refine ⟨verify_ok_iff, fun hnc => ?_⟩
  rcases hv : verify alg ts data with i | u
  · exact ⟨i, rfl⟩
  · cases u
    exact absurd (verify_ok_iff.mp hv) hnc

theorem verify_ok_iff_chain_witness :
    1 ≤ ([[1], [1]] : List Bytes).length ∧
      ((verify sumAlg [[1], [1]] (fun _ _ => [0]) = Except.ok () ↔
          chainOk sumAlg [[1], [1]] (fun _ _ => [0])) ∧
        (¬ chainOk sumAlg [[1], [1]] (fun _ _ => [0]) →
          ∃ i, verify sumAlg [[1], [1]] (fun _ _ => [0]) = Except.error i)) :=
  ⟨by decide, verify_ok_iff_chain sumAlg [[1], [1]] (fun _ _ => [0]) (by decide)⟩

/-- C10: `verify` returns `Ok ()` on every slice of fewer than two ticks
(the empty slice and single-element slices), for every data function. -/
theorem verify_short_ok (alg : DigestAlg σ) (ts : List Bytes)
    (data : Nat → Bytes → Bytes) (h : ts.length < 2) :
    verify alg ts data = Except.ok () := by
  apply verify_ok_iff.mpr
  intro i hi
  omega

theorem verify_short_ok_witness :
    (([] : List Bytes).length < 2 ∧
        verify sumAlg [] (fun _ _ => [0]) = Except.ok ()) ∧
      ([[7]] : List Bytes).length < 2 ∧
        verify sumAlg [[7]] (fun _ _ => [0]) = Except.ok () :=
  ⟨⟨by decide, verify_short_ok sumAlg [] (fun _ _ => [0]) (by decide)⟩,
   by decide, verify_short_ok sumAlg [[7]] (fun _ _ => [0]) (by decide)⟩

/-- C6: for a generator whose stored value is `t.seed`, `next_with_data d`
returns `tick t.seed d` and sets the stored value to that returned value, and
`next` is exactly `next_with_data` applied to the default commitment, which
is the all-zero output — so advancing always succeeds and `next` agrees with
`next_with_data` on the zero commitment. -/
theorem ticks_next_spec (alg : DigestAlg σ) (t : Ticks) (d : Bytes) :
    (Ticks.next_with_data alg t d).1 = tick alg t.seed d ∧
    ((Ticks.next_with_data alg t d).2).seed = tick alg t.seed d ∧
    Ticks.next alg t = Ticks.next_with_data alg t (defaultOutput alg) ∧
    defaultOutput alg = List.replicate alg.outLen 0 :=
  ⟨rfl, rfl, rfl, rfl⟩

/-- The earliest failing window determines the result: if the pair at window
index `m` fails and every earlier pair succeeds, `verify` is `Err m`. -/
theorem verify_error_first_core {alg : DigestAlg σ} {ts : List Bytes}
    {data : Nat → Bytes → Bytes} {m : Nat}
    (h1 : m + 1 < ts.length)
    (h2 : tick alg (ts.getD m []) (data m (ts.getD (m + 1) [])) ≠ ts.getD (m + 1) [])
    (h3 : ∀ j < m, tick alg (ts.getD j []) (data j (ts.getD (j + 1) [])) = ts.getD (j + 1) []) :
    verify alg ts data = Except.error m := by
  apply verify_error_iff.mpr
  refine ⟨mem_failingIndices.mpr ⟨by omega, h2⟩, fun j hj => ?_⟩
  by_contra hjm
  rcases mem_failingIndices.mp hj with ⟨_, hjne⟩
  exact hjne (h3 j (by omega))

/-- C2 as frozen is false on the code: in the slice `[[1], [1], [5]]` over
`sumAlg` with the zero commitment, the tick at index 1 satisfies the chain
relation (`tick [1] [0] = [1]`) and the tick at index 2 is the first that
violates it (`tick [1] [0] ≠ [5]`), yet `verify` reports index 1, not 2:
it returns the window index of the first failing adjacent pair, which is one
less than the index of the first tick violating the relation. -/
theorem verify_error_index_counterexample :
    (tick sumAlg [1] [0] = [1] ∧ tick sumAlg [1] [0] ≠ [5]) ∧
    verify sumAlg [[1], [1], [5]] (fun _ _ => [0]) = Except.error 1 ∧
    (1 : Nat) ≠ 2 :=
  ⟨⟨rfl, by decide⟩, rfl, by decide⟩

/-- C2 (amended): whenever at least one adjacent pair fails the chain
relation, `verify` returns `Err` carrying the minimum failing window index:
the zero-based index (relative to the given slice) of the left element of the
first adjacent pair that fails, i.e. one less than the index of the first
tick that does not satisfy the chain relation; with two independent corrupted
positions this is still the smaller of the failing window indices. -/
theorem verify_error_first (alg : DigestAlg σ) (ts : List Bytes)
    (data : Nat → Bytes → Bytes) (m : Nat)
    (h1 : m + 1 < ts.length)
    (h2 : tick alg (ts.getD m []) (data m (ts.getD (m + 1) [])) ≠ ts.getD (m + 1) [])
    (h3 : ∀ j < m, tick alg (ts.getD j []) (data j (ts.getD (j + 1) [])) = ts.getD (j + 1) []) :
    verify alg ts data = Except.error m :=
  verify_error_first_core h1 h2 h3

theorem verify_error_first_witness :
    verify sumAlg [[1], [1], [1], [7]] (fun _ _ => [0]) = Except.error 2 :=
  verify_error_first sumAlg [[1], [1], [1], [7]] (fun _ _ => [0]) 2
    (by decide) (by decide) (by decide)

/-! ### Generation then verification -/

theorem genTicks_length (alg : DigestAlg σ) (s : Bytes) (ds : List Bytes) :
    (genTicks alg s ds).length = ds.length := by
  induction ds generalizing s with
  | nil => rfl
  | cons d ds ih => simp [genTicks, ih]

theorem genTicks_chain (alg : DigestAlg σ) (s : Bytes) (ds : List Bytes) :
    ∀ i, i < ds.length →
      (s :: genTicks alg s ds).getD (i + 1) [] =
        tick alg ((s :: genTicks alg s ds).getD i []) (ds.getD i []) := by
  induction ds generalizing s with
  | nil => intro i h; exact absurd h (Nat.not_lt_zero i)
  | cons d ds ih =>
    intro i h
    cases i with
    | zero => simp [genTicks]
    | succ j =>
      have hj : j < ds.length := by simpa using Nat.lt_of_succ_lt_succ h
      have := ih (tick alg s d) j hj
      simpa [genTicks] using this

/-- C3: generating `t₁, …, tₙ` from seed `s` by repeated application of the
Tick Function with commitments `d₁, …, dₙ` and then verifying the slice
`[s, t₁, …, tₙ]` with a data function supplying the same commitments
succeeds. -/
theorem generate_verify_ok (alg : DigestAlg σ) (s : Bytes) (ds : List Bytes) :
    verify alg (s :: genTicks alg s ds) (fun i _ => ds.getD i []) = Except.ok () := by
  apply verify_ok_iff.mpr
  intro i hi
  have hlen : (s :: genTicks alg s ds).length = ds.length + 1 := by
    simp [genTicks_length]
  have hi' : i < ds.length := by omega
  exact (genTicks_chain alg s ds i hi').symm

/-! ### Single-bit corruption -/

/-- Flip bit `b` of byte `j` of a digest output. -/
def flipBit (bs : Bytes) (j b : Nat) : Bytes :=
  bs.set j (bs.getD j 0 ^^^ 2 ^ b)

/-- Corrupt the tick at position `k` of a slice by flipping bit `b` of its
byte `j`. -/
def corruptAt (ts : List Bytes) (k j b : Nat) : List Bytes :=
  ts.set k (flipBit (ts.getD k []) j b)

theorem getD_set_self {α : Type} {l : List α} {k : Nat} (h : k < l.length) (x d : α) :
    (l.set k x).getD k d = x := by
  rw [List.getD_eq_getElem?_getD, List.getElem?_set_eq_of_lt x h]
  rfl

theorem getD_set_ne {α : Type} {l : List α} {k i : Nat} (h : i ≠ k) (x d : α) :
    (l.set k x).getD i d = l.getD i d := by
  rw [List.getD_eq_getElem?_getD, List.getD_eq_getElem?_getD,
    List.getElem?_set_ne (by omega)]

theorem xor_pow_ne (v b : Nat) : v ^^^ 2 ^ b ≠ v := by
  intro h
  have h2 : v ^^^ (v ^^^ 2 ^ b) = v ^^^ v := by rw [h]
  rw [Nat.xor_self, ← Nat.xor_assoc, Nat.xor_self, Nat.zero_xor] at h2
  have : 0 < 2 ^ b := Nat.pos_pow_of_pos b (by omega)
  omega

theorem flipBit_ne (bs : Bytes) {j : Nat} (b : Nat) (hj : j < bs.length) :
    flipBit bs j b ≠ bs := by
  intro h
  have := getD_set_self hj (bs.getD j 0 ^^^ 2 ^ b) 0
  rw [show bs.set j (bs.getD j 0 ^^^ 2 ^ b) = flipBit bs j b from rfl, h] at this
  exact xor_pow_ne (bs.getD j 0) b this.symm

/-- C4 as frozen is false on the code: `[[1], [1], [1]]` is a valid chain
over `sumAlg` with the zero commitment, its length is 3, and flipping bit 1
of byte 0 of the tick at position `k = 1` (so `0 < k < n - 1`) yields
`[[1], [3], [1]]`, on which `verify` reports index 0 — not `k = 1` or
`k + 1 = 2`: the pair `(tick[0], tick[1])` is the earliest mismatching pair
and `verify` reports its window index `k - 1 = 0`. -/
theorem corrupt_single_bit_counterexample :
    chainOk sumAlg [[1], [1], [1]] (fun _ _ => [0]) ∧
    corruptAt [[1], [1], [1]] 1 0 1 = [[1], [3], [1]] ∧
    verify sumAlg [[1], [3], [1]] (fun _ _ => [0]) = Except.error 0 ∧
    (0 : Nat) ≠ 1 ∧ (0 : Nat) ≠ 2 :=
  ⟨by decide, by decide, rfl, by decide, by decide⟩

/-- C4 (amended): for every valid tick sequence (with its per-position
commitments `d`) of length `n` and every position `k` with `0 < k < n - 1`,
flipping any single bit of `tick[k]` causes `verify` to fail and to report
window index `k - 1`: the earliest mismatching pair is `(tick[k-1], tick[k])`
and `verify` reports its window index, one less than the index `k` of the
first tick violating the relation. -/
theorem corrupt_single_bit (alg : DigestAlg σ) (ts : List Bytes) (d : Nat → Bytes)
    (k j b : Nat)
    (hvalid : chainOk alg ts (fun i _ => d i))
    (hk0 : 0 < k) (hkn : k < ts.length - 1)
    (hj : j < (ts.getD k []).length) :
    verify alg (corruptAt ts k j b) (fun i _ => d i) = Except.error (k - 1) := by
  have hlen : (corruptAt ts k j b).length = ts.length := List.length_set ..
  have hks : k - 1 + 1 = k := by omega
  have hgetk : (corruptAt ts k j b).getD k [] = flipBit (ts.getD k []) j b :=
    getD_set_self (by omega) _ _
  have hgetne : ∀ i, i ≠ k → (corruptAt ts k j b).getD i [] = ts.getD i [] :=
    fun i hi => getD_set_ne hi _ _
  apply verify_error_first_core (by omega)
  · rw [hks, hgetk, hgetne (k - 1) (by omega)]
    have hrel := hvalid (k - 1) (by omega)
    rw [hks] at hrel
    rw [hrel]
    exact fun hcontra => flipBit_ne (ts.getD k []) b hj hcontra.symm
  · intro i hik
    rw [hgetne i (by omega), hgetne (i + 1) (by omega)]
    exact hvalid i (by omega)

theorem corrupt_single_bit_witness :
    verify sumAlg (corruptAt [[1], [1], [1]] 1 0 1) (fun i _ => (fun _ => ([0] : Bytes)) i) =
      Except.error (1 - 1) :=
  corrupt_single_bit sumAlg [[1], [1], [1]] (fun _ => [0]) 1 0 1
    (by decide) (by decide) (by decide) (by decide)

/-! ### The Tick Function as one hash of the concatenated inputs -/

/-- C5: provided the digest streams (updating with `a ++ b` equals updating
with `a` then with `b`, the contract of `Digest::update`), `tick seed data`
is exactly the one-shot hash of the concatenation of the two fixed-size
inputs; and `tick` is deterministic — equal inputs give equal outputs — and
always succeeds (it is a total function). -/
theorem tick_is_hash_of_concat (alg : DigestAlg σ) (seed data : Bytes)
    (hstream : ∀ st a b, alg.update st (a ++ b) = alg.update (alg.update st a) b) :
    tick alg seed data = hashBytes alg (seed ++ data) ∧
    ∀ s2 d2, s2 = seed → d2 = data → tick alg s2 d2 = tick alg seed data := by
  constructor
  · unfold tick hashBytes
    rw [hstream]
  · intro s2 d2 hs hd
    rw [hs, hd]

theorem tick_is_hash_of_concat_witness :
    tick sumAlg [1, 2] [3] = hashBytes sumAlg ([1, 2] ++ [3]) ∧
    ∀ s2 d2, s2 = [1, 2] → d2 = [3] → tick sumAlg s2 d2 = tick sumAlg [1, 2] [3] :=
  tick_is_hash_of_concat sumAlg [1, 2] [3]
    (fun st a b => (List.append_assoc st a b).symm)

/-! ### Schedule independence of the parallel reduce -/

/-- A reduction tree over the failing indices: rayon's `reduce` splits the
work into arbitrary chunks, folds each chunk from the identity
(`ticks.len()`), and merges intermediate results with `min`.  A tree records
one such schedule; `flatten` is the order the pairs appear in. -/
inductive RTree where
  | leaf (l : List Nat) : RTree
  | node (l r : RTree) : RTree

def RTree.flatten : RTree → List Nat
  | .leaf l => l
  | .node l r => l.flatten ++ r.flatten

def RTree.reduceVal (n : Nat) : RTree → Nat
  | .leaf l => l.foldl Nat.min n
  | .node l r => Nat.min (l.reduceVal n) (r.reduceVal n)

theorem natMin_eq_left {a b : Nat} (h : a ≤ b) : Nat.min a b = a :=
  Nat.le_antisymm (Nat.min_le_left a b) (Nat.le_min.mpr ⟨Nat.le_refl a, h⟩)

theorem natMin_comm (a b : Nat) : Nat.min a b = Nat.min b a :=
  Nat.le_antisymm
    (Nat.le_min.mpr ⟨Nat.min_le_right a b, Nat.min_le_left a b⟩)
    (Nat.le_min.mpr ⟨Nat.min_le_right b a, Nat.min_le_left b a⟩)

theorem natMin_assoc (a b c : Nat) :
    Nat.min (Nat.min a b) c = Nat.min a (Nat.min b c) :=
  Nat.le_antisymm
    (Nat.le_min.mpr ⟨Nat.le_trans (Nat.min_le_left _ _) (Nat.min_le_left a b),
      Nat.le_min.mpr ⟨Nat.le_trans (Nat.min_le_left _ _) (Nat.min_le_right a b),
        Nat.min_le_right _ _⟩⟩)
    (Nat.le_min.mpr ⟨Nat.le_min.mpr ⟨Nat.min_le_left _ _,
      Nat.le_trans (Nat.min_le_right _ _) (Nat.min_le_left b c)⟩,
      Nat.le_trans (Nat.min_le_right _ _) (Nat.min_le_right b c)⟩)

theorem minFold_min_comm (n m : Nat) (l : List Nat) :
    l.foldl Nat.min (Nat.min n m) = Nat.min n (l.foldl Nat.min m) := by
  induction l generalizing m with
  | nil => rfl
  | cons a t ih => rw [List.foldl_cons, List.foldl_cons, natMin_assoc, ih]

theorem minFold_append (n : Nat) (l1 l2 : List Nat) :
    (l1 ++ l2).foldl Nat.min n = Nat.min (l1.foldl Nat.min n) (l2.foldl Nat.min n) := by
  rw [List.foldl_append]
  nth_rewrite 1 [← natMin_eq_left (minFold_le_init n l1)]
  rw [minFold_min_comm]

theorem rtree_reduceVal_eq (n : Nat) (t : RTree) :
    t.reduceVal n = t.flatten.foldl Nat.min n := by
  induction t with
  | leaf l => rfl
  | node l r ihl ihr => rw [RTree.reduceVal, RTree.flatten, minFold_append, ihl, ihr]

theorem minFold_perm {l1 l2 : List Nat} (h : l1.Perm l2) (n : Nat) :
    l1.foldl Nat.min n = l2.foldl Nat.min n := by
  induction h generalizing n with
  | nil => rfl
  | cons a _ ih => rw [List.foldl_cons, List.foldl_cons, ih]
  | swap a b l =>
    rw [List.foldl_cons, List.foldl_cons, List.foldl_cons, List.foldl_cons,
      natMin_assoc, natMin_comm b a, ← natMin_assoc]
  | trans _ _ ih1 ih2 => rw [ih1, ih2]

/-- C7: `verify` is deterministic across runs despite the internal parallel
evaluation: every reduction schedule — any reduction tree whose leaves
partition the failing window indices in any order — produces the same final
index and hence the same result as `verify`, and repeated calls on the same
input agree.  The input slice is untouched: `verify` is a pure function of
it. -/
theorem verify_deterministic (alg : DigestAlg σ) (ts : List Bytes)
    (data : Nat → Bytes → Bytes) (t : RTree)
    (hsched : t.flatten.Perm (failingIndices alg ts data)) :
    (if t.reduceVal ts.length < ts.length then Except.error (t.reduceVal ts.length)
      else Except.ok ()) = verify alg ts data ∧
    verify alg ts data = verify alg ts data := by
  have hval : t.reduceVal ts.length =
      (failingIndices alg ts data).foldl Nat.min ts.length := by
    rw [rtree_reduceVal_eq, minFold_perm hsched]
  exact ⟨by rw [hval]; rfl, rfl⟩

theorem verify_deterministic_witness :
    (if (RTree.node (RTree.leaf []) (RTree.leaf [1])).reduceVal
          ([[1], [1], [5]] : List Bytes).length < ([[1], [1], [5]] : List Bytes).length
      then Except.error ((RTree.node (RTree.leaf []) (RTree.leaf [1])).reduceVal
          ([[1], [1], [5]] : List Bytes).length)
      else Except.ok ()) = verify sumAlg [[1], [1], [5]] (fun _ _ => [0]) ∧
    verify sumAlg [[1], [1], [5]] (fun _ _ => [0]) =
      verify sumAlg [[1], [1], [5]] (fun _ _ => [0]) :=
  verify_deterministic sumAlg [[1], [1], [5]] (fun _ _ => [0])
    (RTree.node (RTree.leaf []) (RTree.leaf [1])) (by decide)

/-! ### Boundary continuity -/

/-- C8: for a history ending in tick `t` and a next-block first tick `f`,
the two-element window `[t, f]` verifies `Ok` exactly when `f` was derived
from `t` with the commitment the data function supplies for that pair, and
verifies `Err 0` exactly when it was not — in particular, if `f = tick s c`
was derived from any other seed `s` and that value differs from
`tick t (data 0 f)` (no hash collision), the window check fails. -/
theorem verify_boundary_window (alg : DigestAlg σ) (t f : Bytes)
    (data : Nat → Bytes → Bytes) :
    (verify alg [t, f] data = Except.ok () ↔ tick alg t (data 0 f) = f) ∧
    (verify alg [t, f] data = Except.error 0 ↔ tick alg t (data 0 f) ≠ f) := by
  have hchain : chainOk alg [t, f] data ↔ tick alg t (data 0 f) = f := by
    constructor
    · intro h
      have := h 0 (by simp)
      simpa using this
    · intro h i hi
      have hi0 : i = 0 := by simpa using hi
      subst hi0
      simpa using h
  constructor
  · rw [verify_ok_iff, hchain]
  · constructor
    · intro h
      intro heq
      have := verify_ok_iff.mpr (hchain.mpr heq)
      rw [this] at h
      exact Except.noConfusion h
    · intro hne
      apply verify_error_first_core (by simp)
      · simpa using hne
      · intro j hj
        exact absurd hj (Nat.not_lt_zero j)

/-! ### The block pipeline (demo.rs) -/

def isOk : Except Nat Unit → Bool
  | .ok _ => true
  | .error _ => false

/-- demo.rs verifier loop body: if the replica has a last tick and the
incoming block a first tick, check the two-tick boundary window
`[last, first]`; also check the block's internal chain; only when both
succeed append the block to the replica.  The demo's `unwrap` aborts the
verifier thread on failure, modelled as `none`. -/
def verifierStep (alg : DigestAlg σ) (data : Nat → Bytes → Bytes)
    (history block : List Bytes) : Option (List Bytes) :=
  let boundaryOk : Bool :=
    match history.getLast?, block.head? with
    | some last, some first => isOk (verify alg [last, first] data)
    | _, _ => true
  if boundaryOk && isOk (verify alg block data) then some (history ++ block) else none

/-- demo.rs verifier thread: consume the blocks in production order (the
sync channel is FIFO and bounded), run `verifierStep` on each, and return
the accumulated replica once the channel is exhausted (the producer dropped
its sending side). -/
def verifierRun (alg : DigestAlg σ) (data : Nat → Bytes → Bytes)
    (history : List Bytes) : List (List Bytes) → Option (List Bytes)
  | [] => some history
  | b :: bs =>
    match verifierStep alg data history b with
    | some h => verifierRun alg data h bs
    | none => none

theorem getD_append_left {α : Type} {l1 : List α} (l2 : List α) {i : Nat}
    (h : i < l1.length) (d : α) : (l1 ++ l2).getD i d = l1.getD i d := by
  rw [List.getD_eq_getElem?_getD, List.getD_eq_getElem?_getD, List.getElem?_append_left h]

theorem getD_append_right {α : Type} (l1 l2 : List α) (i : Nat) (d : α) :
    (l1 ++ l2).getD (l1.length + i) d = l2.getD i d := by
  rw [List.getD_eq_getElem?_getD, List.getD_eq_getElem?_getD,
    List.getElem?_append_right (by omega)]
  congr 2
  omega

theorem verifierRun_of_chainOk (alg : DigestAlg σ) (f : Bytes → Bytes) :
    ∀ (blocks : List (List Bytes)) (hist : List Bytes), hist ≠ [] →
      chainOk alg (hist ++ blocks.flatten) (fun _ h => f h) →
      (∀ b ∈ blocks, b ≠ []) →
      verifierRun alg (fun _ h => f h) hist blocks = some (hist ++ blocks.flatten) := by
  intro blocks
  induction blocks with
  | nil =>
    intro hist hne _ _
    simp [verifierRun]
  | cons b bs ih =>
    intro hist hne hchain hbne
    have hb : b ≠ [] := hbne b (List.mem_cons_self b bs)
    have hhl : 0 < hist.length := List.length_pos.mpr hne
    have hbl : 0 < b.length := List.length_pos.mpr hb
    have hflat : (b :: bs).flatten = b ++ bs.flatten := by simp
    have hfullen : (hist ++ (b :: bs).flatten).length =
        hist.length + (b.length + bs.flatten.length) := by simp
    -- the tick preceding the block and the block's first tick
    have hgetfull : ∀ i, (hist ++ (b :: bs).flatten).getD (hist.length + i) [] =
        (b ++ bs.flatten).getD i [] := by
      intro i
      rw [hflat]
      exact getD_append_right hist (b ++ bs.flatten) i []
    have hlast : (hist ++ (b :: bs).flatten).getD (hist.length - 1) [] =
        hist.getD (hist.length - 1) [] :=
      getD_append_left _ (by omega) []
    have hfirst : (hist ++ (b :: bs).flatten).getD hist.length [] = b.getD 0 [] := by
      have := hgetfull 0
      rw [getD_append_left bs.flatten hbl] at this
      simpa using this
    -- the boundary pair satisfies the chain relation
    have hbrel : tick alg (hist.getD (hist.length - 1) []) (f (b.getD 0 [])) =
        b.getD 0 [] := by
      have := hchain (hist.length - 1) (by omega)
      rw [show hist.length - 1 + 1 = hist.length from by omega, hlast, hfirst] at this
      exact this
    have hlastval : hist.getLast hne = hist.getD (hist.length - 1) [] := by
      rw [List.getLast_eq_getElem, List.getD_eq_getElem]
    have hheadval : b.head hb = b.getD 0 [] := by
      rcases b with _ | ⟨b0, b'⟩
      · exact absurd rfl hb
      · rfl
    have hboundary :
        verify alg [hist.getLast hne, b.head hb] (fun _ h => f h) = Except.ok () := by
      apply verify_ok_iff.mpr
      intro i hi
      have hi0 : i = 0 := by simpa using hi
      subst hi0
      rw [hlastval, hheadval]
      simpa using hbrel
    -- the block's internal chain holds
    have hblock : verify alg b (fun _ h => f h) = Except.ok () := by
      apply verify_ok_iff.mpr
      intro i hi
      have hgi : (hist ++ (b :: bs).flatten).getD (hist.length + i) [] = b.getD i [] := by
        rw [hgetfull i, getD_append_left bs.flatten (by omega)]
      have hgi1 : (hist ++ (b :: bs).flatten).getD (hist.length + i + 1) [] =
          b.getD (i + 1) [] := by
        rw [show hist.length + i + 1 = hist.length + (i + 1) from by omega, hgetfull (i + 1),
          getD_append_left bs.flatten (by omega)]
      have := hchain (hist.length + i) (by omega)
      rw [hgi1, hgi] at this
      exact this
    have hstep : verifierStep alg (fun _ h => f h) hist b = some (hist ++ b) := by
      unfold verifierStep
      rw [List.getLast?_eq_getLast hist hne, List.head?_eq_head hb]
      simp [hboundary, hblock, isOk]
    have hchain2 : chainOk alg ((hist ++ b) ++ bs.flatten) (fun _ h => f h) := by
      have : (hist ++ b) ++ bs.flatten = hist ++ (b :: bs).flatten := by simp
      rw [this]
      exact hchain
    have hrest := ih (hist ++ b)
      (fun hcon => hb (List.append_eq_nil.mp hcon).2) hchain2
      (fun b' hb' => hbne b' (List.mem_cons_of_mem b hb'))
    simp only [verifierRun, hstep]
    rw [hrest]
    simp

/-- C9: in the block pipeline, the verifier consumes the blocks in
production order, checks the two-tick boundary between the previous tick of
its replica and the new block's first tick as well as the block's internal
chain before appending the block; when the producer's whole history
(`seed :: blocks.flatten`, with its per-tick commitments supplied by the
hash-keyed lookup `f`) satisfies the chain relation, every check passes and
after the stream ends the verifier returns a replica element-wise identical
to the producer's history. -/
theorem pipeline_end_to_end (alg : DigestAlg σ) (f : Bytes → Bytes) (seed : Bytes)
    (blocks : List (List Bytes))
    (hchain : chainOk alg ([seed] ++ blocks.flatten) (fun _ h => f h))
    (hbne : ∀ b ∈ blocks, b ≠ []) :
    verifierRun alg (fun _ h => f h) [seed] blocks = some ([seed] ++ blocks.flatten) :=
  verifierRun_of_chainOk alg f blocks [seed] (by simp) hchain hbne

theorem pipeline_end_to_end_witness :
    verifierRun sumAlg (fun _ h => (fun _ => ([0] : Bytes)) h) [[1]] [[[1]], [[1], [1]]] =
      some ([[1]] ++ ([[[1]], [[1], [1]]] : List (List Bytes)).flatten) :=
  pipeline_end_to_end sumAlg (fun _ => [0]) [1] [[[1]], [[1], [1]]]
    (by decide) (by decide)

end PoH
